import Mathlib

/-!
Verification development for the `gocd` package finder.

Shallow embedding of the repository's Go sources:
  * `cache.go` variant with `map[string]int64` storage (the variant used by
    `finder.go`, whose calls pass plain `string` keys),
  * `finder.go` (`PkgFinder`: walker, exact/fuzzy lookup, `Find` pipeline),
  * `main.go` (flag wiring: the package-level `depth` flag is passed to
    `NewPkgFinder`, so the finder's `depthLimit` always equals the global
    `depth` variable read inside `walkPath`).

Go strings are modelled as `List Char` (`GoStr`); all inputs of interest are
ASCII, where Go's byte-wise operations coincide with character-wise ones.
`filepath.Separator` is `'/'`. Machine integers (`int64` mtimes, `int`
depths) are modelled as `Int`; result counts as `Nat`.

The external library `github.com/renstrom/fuzzysearch/fuzzy` (not part of
this repository) is modelled by `matchFold` (case-insensitive subsequence
test) and `lev` (unit-cost Levenshtein distance, Wagner–Fischer rows), which
is what `RankFindFold` computes for each target that matches.

The external walker `github.com/kr/fs` visits entries in lexical order,
depth first; `SkipDir` prevents descending into the current entry. The
filesystem is modelled as a tree (`FSNode`/`FSList`) whose child lists are
in lexical order; files carry empty child lists.
-/

namespace Gocd

/-- Go strings, as lists of characters (ASCII throughout). -/
abbrev GoStr := List Char

/-- Go `<` on strings: lexicographic byte order (character order on ASCII). -/
def gsLt : GoStr → GoStr → Bool
  | [], [] => false
  | [], _ :: _ => true
  | _ :: _, [] => false
  | a :: s, b :: t => if a = b then gsLt s t else decide (a < b)

/-- Go `<=` on strings. -/
def gsLe (a b : GoStr) : Bool := !(gsLt b a)

/-- `strings.Split(s, "/")` (the separator is the single character `/`). -/
def splitSlash (s : GoStr) : List GoStr :=
  go s []
where
  go : GoStr → GoStr → List GoStr
    | [], acc => [acc.reverse]
    | c :: rest, acc => if c = '/' then acc.reverse :: go rest [] else go rest (c :: acc)

/-- `filepath.Join`: non-empty elements joined by `/`. (`Clean` is the
identity on the inputs occurring here: joins of separator-free, dot-free
components and of already-clean paths.) -/
def goJoin (parts : List GoStr) : GoStr :=
  match parts.filter (fun p => !p.isEmpty) with
  | [] => []
  | p :: rest => p ++ (rest.map (fun q => '/' :: q)).flatten

/-- `strings.HasPrefix` (is `p` an initial segment of `s`). -/
def goHasPre (s p : GoStr) : Bool :=
  match s, p with
  | _, [] => true
  | [], _ :: _ => false
  | a :: s, b :: t => a = b && goHasPre s t

/-- `strings.Contains` (does `s` contain `sub` as a substring). -/
def goContainsSub (s sub : GoStr) : Bool :=
  goHasPre s sub || (match s with | [] => false | _ :: rest => goContainsSub rest sub)

/-! ## Model of the external fuzzy library (`renstrom/fuzzysearch/fuzzy`) -/

/-- A `fuzzy.Rank`: matched target and its dissimilarity distance. The
`Source` field is always the query and is never consulted, so it is
omitted. -/
structure Rank where
  target : GoStr
  distance : Nat
  deriving Repr, DecidableEq

/-- Case-insensitive subsequence test on runes (`fuzzy.MatchFold`): every
character of the needle occurs in the haystack, in order, comparing
lower-cased characters. -/
def subseqFold : GoStr → GoStr → Bool
  | [], _ => true
  | _ :: _, [] => false
  | a :: s, b :: t => if a.toLower = b.toLower then subseqFold s t else subseqFold (a :: s) t

/-- `fuzzy.MatchFold(source, target)`. The library first rejects targets
shorter than the source and short-circuits the equal-length case through
`EqualFold`; on ASCII both are equivalent to the folded subsequence test,
which is kept as the single defining clause plus the length guard. -/
def matchFold (source target : GoStr) : Bool :=
  if target.length < source.length then false
  else subseqFold source target

/-- One cell column of the Wagner–Fischer recurrence: given the previous
row (from position `j` on) and the current row's cell at `j`, produce the
rest of the current row. -/
def levRowGo (a : Char) : GoStr → List Nat → Nat → List Nat
  | [], _, _ => []
  | b :: bs, p0 :: rest, c =>
    let next := min (c + 1) (min (rest.headD 0 + 1) (p0 + (if a = b then 0 else 1)))
    next :: levRowGo a bs rest next
  | _ :: _, [], _ => []

/-- Next full row of the Wagner–Fischer matrix. -/
def levNextRow (a : Char) (t : GoStr) (prev : List Nat) : List Nat :=
  let c0 := prev.headD 0 + 1
  c0 :: levRowGo a t prev c0

/-- Unit-cost Levenshtein distance (`fuzzy.LevenshteinDistance`), computed
row by row; case-sensitive, as in the library. -/
def lev (s t : GoStr) : Nat :=
  (s.foldl (fun prev a => levNextRow a t prev) (List.range (t.length + 1))).getLastD 0

/-- `fuzzy.RankFindFold(source, targets)`: one rank per target that
fold-matches the source, with the Levenshtein distance to it. -/
def rankFindFold (source : GoStr) (targets : List GoStr) : List Rank :=
  targets.filterMap fun t => if matchFold source t then some ⟨t, lev source t⟩ else none

/-! ## The cache (`cache.go`, `map[string]int64` variant)

The Go map `storage` is modelled as an association list with unique keys;
Go's map iteration order is arbitrary, so no theorem below may depend on
the list order of `storage` unless it also proves order-irrelevance. -/

/-- The `cache` struct. The `file` field only matters for real I/O and is
omitted; `save`'s observable behaviour is captured by `Cache.saveWrites`. -/
structure Cache where
  storage : List (GoStr × Int)
  changed : Bool
  fullScan : Bool
  deriving Repr, DecidableEq

/-- `cache.get`. -/
def Cache.get (c : Cache) (path : GoStr) : Option Int :=
  (c.storage.find? (fun e => e.1 = path)).map (·.2)

/-- Go map assignment `storage[path] = mtime`: update in place, or append a
new binding. -/
def mapSet (l : List (GoStr × Int)) (k : GoStr) (v : Int) : List (GoStr × Int) :=
  if l.any (fun e => e.1 = k) then l.map (fun e => if e.1 = k then (k, v) else e)
  else l ++ [(k, v)]

/-- `cache.add`: unconditional upsert, marks the cache dirty. -/
def Cache.add (c : Cache) (path : GoStr) (mtime : Int) : Cache :=
  { c with storage := mapSet c.storage path mtime, changed := true }

/-- `cache.del`: no-op when absent, otherwise delete and mark dirty. -/
def Cache.del (c : Cache) (path : GoStr) : Cache :=
  match c.get path with
  | none => c
  | some _ => { c with storage := c.storage.filter (fun e => !(e.1 = path : Bool)), changed := true }

/-- `cache.save` performs a write exactly when the guard `!changed &&
!fullScan` does not return early. -/
def Cache.saveWrites (c : Cache) : Bool := c.changed || c.fullScan

/-- The inner loop of `cache.contains` for one entry: scan the suffix joins
`filepath.Join(components[x:])` for `x = len-1` down to `0` (given here as
the list `suffixes` in that order), appending the entry on each hit; the
second component signals the early `return` taken when `len(ret) > max`
just became true. -/
def containsEntryScan (q : GoStr) (max : Nat) (entry : GoStr) :
    List GoStr → List GoStr → List GoStr × Bool
  | [], ret => (ret, false)
  | p :: rest, ret =>
    if q = p then
      let ret' := ret ++ [entry]
      if ret'.length > max then (ret', true) else containsEntryScan q max entry rest ret'
    else containsEntryScan q max entry rest ret

/-- The suffix joins of a component list in the loop order of
`cache.contains` (`x` from `len-1` down to `0`). -/
def suffixJoins (comps : List GoStr) : List GoStr :=
  (List.range comps.length).map fun i => goJoin (comps.drop (comps.length - 1 - i))

/-- The outer loop of `cache.contains` over the stored entries. -/
def containsScan (q : GoStr) (max : Nat) : List (GoStr × Int) → List GoStr → List GoStr × Bool
  | [], ret => (ret, false)
  | e :: rest, ret =>
    match containsEntryScan q max e.1 (suffixJoins (splitSlash e.1)) ret with
    | (ret', true) => (ret', false)
    | (ret', false) => containsScan q max rest ret'

/-- `cache.contains(path, max)`: a whole-key hit yields a singleton with the
full-match flag `true`; otherwise every entry is scanned for a suffix-join
hit, with an early return once more than `max` matches have been collected,
and the flag is `false`. -/
def Cache.contains (c : Cache) (path : GoStr) (max : Nat) : List GoStr × Bool :=
  match c.get path with
  | some _ => ([path], true)
  | none => containsScan path max c.storage []

/-! ## Filesystem model and the walker (`finder.go` + `kr/fs`) -/

mutual
/-- A filesystem entry: name, kind, `ModTime().Unix()`, and children (empty
for regular files). Child lists are kept in lexical order, the order in
which `kr/fs` enumerates a directory. -/
inductive FSNode where
  | mk (name : GoStr) (isDir : Bool) (mtime : Int) (children : FSList)
/-- A list of sibling entries. -/
inductive FSList where
  | nil
  | cons (n : FSNode) (rest : FSList)
end

def FSNode.name : FSNode → GoStr
  | .mk n _ _ _ => n

def FSNode.isDir : FSNode → Bool
  | .mk _ d _ _ => d

def FSNode.mtime : FSNode → Int
  | .mk _ _ mt _ => mt

def FSNode.children : FSNode → FSList
  | .mk _ _ _ cs => cs

/-- Look up a direct child by name. -/
def FSList.child : FSList → GoStr → Option FSNode
  | .nil, _ => none
  | .cons n rest, nm => if n.name = nm then some n else rest.child nm

/-- `os.Stat` of a path relative to the workspace root: the successive
components must resolve through the tree (an entry of any kind at the end
succeeds; files have no children, so paths through them fail). -/
def FSNode.statRel (fs : FSNode) : List GoStr → Bool
  | [] => true
  | nm :: rest =>
    match fs.children.child nm with
    | some c => c.statRel rest
    | none => false

/-- `os.Stat(filepath.Join(gopath, find))` for a query `find`: an empty
query joins to the root itself, which exists. -/
def FSNode.statRelStr (fs : FSNode) (find : GoStr) : Bool :=
  if find.isEmpty then true else fs.statRel (splitSlash find)

/-- The walker's mutable state: the finder's cache and the accumulated
match slice (`prevCache` in `walker`, `matches` in `walkPath`). -/
structure WalkSt where
  cache : Cache
  prevCache : List GoStr
  deriving Repr, DecidableEq

/-- `matchComponent`: scan the components of the relative path from `x = 0`
upward and return the first suffix join equal to `find`. -/
def matchComponent (find : GoStr) (comps : List GoStr) : Option GoStr :=
  (List.range comps.length).findSome? fun x =>
    if find = goJoin (comps.drop x) then some (goJoin (comps.drop x)) else none

/-- `sort.SearchStrings` on a sorted slice: the insertion index of `s`,
i.e. the length of the prefix of elements below `s`. -/
def searchStringsIdx (l : List GoStr) (s : GoStr) : Nat :=
  (l.takeWhile (fun x => gsLt x s)).length

/-- `walkPath` (finder.go:86-114). Parameters: the query `find`, the
package path `pkg` with components `comps`, the entry's mtime, the finder's
`depthLimit` `dl`, and the package-level flag variable `depth` (`fd`, set
by `-d` and read verbatim in the guard `w.depthLimit-1 == depth`; the
walker's local `depth` shadows it only inside `walker`, not here). Returns
the updated state and whether `walker.SkipDir()` was called. -/
def walkPath (find pkg : GoStr) (comps : List GoStr) (mtime : Int) (dl fd : Int)
    (st : WalkSt) : WalkSt × Bool :=
  if st.cache.fullScan then
    ({ st with cache := st.cache.add pkg mtime }, false)
  else
    let prev := st.cache.get pkg
    let c1 := if prev.isNone then st.cache.add pkg mtime else st.cache
    if (matchComponent find comps).isSome then
      let idx := searchStringsIdx st.prevCache pkg
      let ms := if st.prevCache.length ≤ idx then st.prevCache ++ [pkg] else st.prevCache
      ({ cache := c1, prevCache := ms }, false)
    else
      let skip :=
        if dl - 1 = fd then
          match prev with
          | some p => decide (mtime ≤ p)
          | none => false
        else false
      (⟨c1, st.prevCache⟩, skip)

/-- The walker's exclusion test (finder.go:153-156): name starts with `.`
or `_`, or the full (absolute) path contains the substring `vendor`. -/
def excludedDir (gopath : GoStr) (comps : List GoStr) (name : GoStr) : Bool :=
  goHasPre name ".".toList || goHasPre name "_".toList ||
    goContainsSub (goJoin (gopath :: comps)) "vendor".toList

/-- The loop body of `walker` (finder.go:119-161) over a list of sibling
entries whose parent has package components `pcomps`, followed by the
continuation on the remaining siblings. The root itself is handled by
`runWalker` (it is skipped by the `path == w.gopath` test but always
descended into). For a file, `pkg` is the parent directory's path; a file
never reaches `walkPath` (the `!isDir` `continue`), and `SkipDir` on a file
is a no-op in `kr/fs`, so files leave the state unchanged. -/
def walkList (gopath find : GoStr) (dl fd : Int) :
    List GoStr → FSList → WalkSt → WalkSt
  | _, .nil, st => st
  | pcomps, .cons (.mk name isDir mt children) rest, st =>
    let st' :=
      if !isDir then st
      else
        let comps := pcomps ++ [name]
        let depthLimitHit := decide (dl > -1) && decide ((comps.length : Int) ≥ dl)
        if excludedDir gopath comps name then st
        else
          let ws := walkPath find (goJoin comps) comps mt dl fd st
          if depthLimitHit || ws.2 then ws.1
          else walkList gopath find dl fd comps children ws.1
    walkList gopath find dl fd pcomps rest st'

/-- `walker(root, find)` with `root = w.gopath`: walk the root's children
with an empty match accumulator. -/
def runWalker (fs : FSNode) (gopath find : GoStr) (dl fd : Int) (c : Cache) : WalkSt :=
  walkList gopath find dl fd [] fs.children ⟨c, []⟩

/-! ## The result order (`OrderedRanks.Less`, finder.go:42-50) -/

theorem gsLt_irrefl (a : GoStr) : gsLt a a = false := by
  induction a with
  | nil => rfl
  | cons x s ih => simp [gsLt, ih]

theorem gsLt_trans {a b c : GoStr} (h1 : gsLt a b = true) (h2 : gsLt b c = true) :
    gsLt a c = true := by
  induction a generalizing b c with
  | nil =>
    cases c with
    | nil => cases b <;> simp [gsLt] at h1 h2
    | cons y t => simp [gsLt]
  | cons x s ih =>
    cases b with
    | nil => simp [gsLt] at h1
    | cons y t =>
      cases c with
      | nil => simp [gsLt] at h2
      | cons z u =>
        simp only [gsLt] at h1 h2 ⊢
        by_cases hxy : x = y
        · subst hxy
          simp only [if_pos rfl] at h1
          by_cases hyz : x = z
          · subst hyz
            simp only [if_pos rfl] at h2 ⊢
            exact ih h1 h2
          · simpa [hyz] using h2
        · simp only [if_neg hxy] at h1
          by_cases hyz : y = z
          · subst hyz
            simp [hxy, h1]
          · simp only [if_neg hyz] at h2
            have hxz : x < z := lt_trans (of_decide_eq_true h1) (of_decide_eq_true h2)
            have : x ≠ z := ne_of_lt hxz
            simp [this, hxz]

theorem gsLt_trichot (a b : GoStr) : gsLt a b = true ∨ a = b ∨ gsLt b a = true := by
  induction a generalizing b with
  | nil => cases b <;> simp [gsLt]
  | cons x s ih =>
    cases b with
    | nil => simp [gsLt]
    | cons y t =>
      by_cases hxy : x = y
      · subst hxy
        rcases ih t with h | h | h
        · exact Or.inl (by simp [gsLt, h])
        · exact Or.inr (Or.inl (by rw [h]))
        · exact Or.inr (Or.inr (by simp [gsLt, h]))
      · rcases lt_trichotomy x y with h | h | h
        · exact Or.inl (by simp [gsLt, hxy, h])
        · exact absurd h hxy
        · exact Or.inr (Or.inr (by simp [gsLt, Ne.symm hxy, h]))

theorem gsLt_asymm {a b : GoStr} (h : gsLt a b = true) : gsLt b a = false := by
  by_contra hc
  have hba : gsLt b a = true := by revert hc; cases gsLt b a <;> simp
  have := gsLt_trans h hba
  rw [gsLt_irrefl] at this
  exact Bool.false_ne_true this

theorem gsLe_antisymm {a b : GoStr} (h1 : gsLe a b = true) (h2 : gsLe b a = true) : a = b := by
  unfold gsLe at h1 h2
  rcases gsLt_trichot a b with h | h | h
  · rw [h] at h2; simp at h2
  · exact h
  · rw [h] at h1; simp at h1

theorem gsLe_total (a b : GoStr) : gsLe a b = true ∨ gsLe b a = true := by
  unfold gsLe
  rcases gsLt_trichot a b with h | h | h
  · left; simp [gsLt_asymm h]
  · subst h; left; simp [gsLt_irrefl]
  · right; simp [gsLt_asymm h]

theorem gsLe_trans {a b c : GoStr} (h1 : gsLe a b = true) (h2 : gsLe b c = true) :
    gsLe a c = true := by
  unfold gsLe at h1 h2 ⊢
  by_contra hc
  have hca : gsLt c a = true := by revert hc; cases gsLt c a <;> simp
  rcases gsLt_trichot b c with h | h | h
  · have := gsLt_trans h hca
    rw [this] at h1; exact absurd h1 (by simp)
  · subst h; rw [hca] at h1; exact absurd h1 (by simp)
  · rw [h] at h2; exact absurd h2 (by simp)

/-- The total order realised by `OrderedRanks.Less` together with
`sort.Sort`: ascending distance, ties broken by lexicographic target. An
element precedes another exactly when `Less` does not order them the other
way around. -/
def rankLe (a b : Rank) : Prop :=
  a.distance < b.distance ∨ (a.distance = b.distance ∧ gsLe a.target b.target = true)

instance : DecidableRel rankLe := fun a b =>
  inferInstanceAs (Decidable (_ ∨ _))

instance : IsTotal Rank rankLe where
  total a b := by
    rcases Nat.lt_trichotomy a.distance b.distance with h | h | h
    · exact Or.inl (Or.inl h)
    · rcases gsLe_total a.target b.target with ht | ht
      · exact Or.inl (Or.inr ⟨h, ht⟩)
      · exact Or.inr (Or.inr ⟨h.symm, ht⟩)
    · exact Or.inr (Or.inl h)

instance : IsTrans Rank rankLe where
  trans a b c h1 h2 := by
    rcases h1 with h1 | ⟨e1, t1⟩
    · rcases h2 with h2 | ⟨e2, _⟩
      · exact Or.inl (lt_trans h1 h2)
      · exact Or.inl (e2 ▸ h1)
    · rcases h2 with h2 | ⟨e2, t2⟩
      · exact Or.inl (e1 ▸ h2)
      · exact Or.inr ⟨e1.trans e2, gsLe_trans t1 t2⟩

instance : IsAntisymm Rank rankLe where
  antisymm a b h1 h2 := by
    rcases h1 with h1 | ⟨e1, t1⟩
    · rcases h2 with h2 | ⟨e2, _⟩
      · exact absurd (lt_trans h1 h2) (lt_irrefl _)
      · exact absurd h1 (e2 ▸ lt_irrefl _)
    · rcases h2 with h2 | ⟨_, t2⟩
      · exact absurd h2 (e1 ▸ lt_irrefl _)
      · cases a; cases b
        simp only at e1 t1 t2
        simp [Rank.mk.injEq, e1, gsLe_antisymm t1 t2]

/-- `sort.Sort` on `OrderedRanks`: some permutation that is sorted under
`Less`'s order. Since `rankLe` is antisymmetric on the modelled `Rank`
(both compared fields are all its fields), every sorted permutation is the
same list, so insertion sort is an exact model of Go's unstable sort. -/
def sortRanks (l : List Rank) : List Rank := List.insertionSort rankLe l

/-! ## The finder pipeline (`finder.go`) -/

/-- `OrderedRanks.rank` (finder.go:19-32). The loop variable `elem` ranges
by value over the slice, so the assignment `elem.Distance = min` mutates a
copy and is discarded: the method has no observable effect on the slice.
It is therefore the identity (it cannot panic on the inputs `Find` passes
it: every element's target contains the query as a path-suffix, hence as a
fold subsequence, so `fuzzy.RankFindFold` is never empty there). -/
def rankMethod (rel find : GoStr) (r : List Rank) : List Rank := r

/-- `isValid` (finder.go:165-185): an absolute query is returned verbatim;
a query that resolves under the workspace root is returned joined;
otherwise no short-circuit. `path.IsAbs` is a leading `/` test. The
`Distance` field stays at its zero value. -/
def isValid (fs : FSNode) (gopath find : GoStr) : Option (List Rank) :=
  if goHasPre find "/".toList then some [⟨find, 0⟩]
  else if fs.statRelStr find then some [⟨goJoin [gopath, find], 0⟩]
  else none

/-- `recheckPaths` (finder.go:262-280): for each candidate, keep it if the
cache was just fully rescanned or the backing directory still exists,
otherwise evict it via `del`. -/
def recheckPaths (fs : FSNode) (gopath : GoStr) : List GoStr → Cache → List Rank × Cache
  | [], c => ([], c)
  | p :: rest, c =>
    let ok := if c.fullScan then true else fs.statRelStr p
    if ok then
      let rc := recheckPaths fs gopath rest c
      (⟨goJoin [gopath, p], 0⟩ :: rc.1, rc.2)
    else
      recheckPaths fs gopath rest (c.del p)

/-- `findInCache` (finder.go:187-203). The unreachable `paths[0]` of the
full-match fast path is modelled with `headD` (in that branch `paths` is
the singleton `[find]`). -/
def findInCache (fs : FSNode) (gopath : GoStr) (c : Cache) (find : GoStr) :
    Option (List Rank) × Bool × Cache :=
  let pf := c.contains find 1
  if pf.2 && c.fullScan then
    (some [⟨goJoin [gopath, pf.1.headD []], 0⟩], true, c)
  else
    let rc := recheckPaths fs gopath pf.1 c
    if rc.1.length > 0 then (some rc.1, pf.2, rc.2)
    else (none, false, rc.2)

/-- `traverse` (finder.go:205-225): run the walker and package its matches;
`none` models the `nil` return distinguished from an empty slice. -/
def traverse (fs : FSNode) (gopath find : GoStr) (dl fd : Int) (c : Cache) :
    Option (List Rank) × Cache :=
  let st := runWalker fs gopath find dl fd c
  let pkgs := st.prevCache
  if pkgs.length > 1 then
    (some (pkgs.map fun p => ⟨goJoin [gopath, p], 0⟩), st.cache)
  else if pkgs.length = 1 then
    (some [⟨goJoin [gopath, pkgs.headD []], 0⟩], st.cache)
  else (none, st.cache)

/-- The per-entry inner loop of `fuzzyFindMatches`: fold over the entry's
ranks, skipping distances above 10 and keeping the first minimal distance,
the kept rank's target being rewritten to `filepath.Join(gopath, entry)`. -/
def fuzzyScanRanks (gopath entry : GoStr) : List Rank → Option Rank → Option Rank
  | [], acc => acc
  | r :: rest, acc =>
    if r.distance > 10 then fuzzyScanRanks gopath entry rest acc
    else
      match acc with
      | some m =>
        if r.distance < m.distance then
          fuzzyScanRanks gopath entry rest (some ⟨goJoin [gopath, entry], r.distance⟩)
        else fuzzyScanRanks gopath entry rest (some m)
      | none => fuzzyScanRanks gopath entry rest (some ⟨goJoin [gopath, entry], r.distance⟩)

/-- The `matches[entry]` value `fuzzyFindMatches` ends up with for one
stored entry: ranks are computed over the entry's components plus the full
entry string. -/
def fuzzyEntry (gopath find entry : GoStr) : Option Rank :=
  fuzzyScanRanks gopath entry (rankFindFold find (splitSlash entry ++ [entry])) none

/-- `fuzzyFindMatches` (finder.go:282-315): collect the per-entry minima
over the whole storage, sort, and truncate to `num`. The collection order
is the map's arbitrary iteration order, here the storage list's order; a
theorem below proves the output does not depend on that order. -/
def fuzzyFindMatches (gopath find : GoStr) (c : Cache) (num : Nat) : List Rank :=
  let collected := c.storage.filterMap fun e => fuzzyEntry gopath find e.1
  let ret := sortRanks collected
  if ret.length > num then ret.take num else ret

/-- The observable outcome of one `Find` call: the returned ranks, the
finder's cache afterwards, how many times `cache.save` ran (via the
`defer`), whether that save attempted a persisted write, and whether a
persistence failure was reported to stderr. `Find`'s `error` return is
always `nil` in the source and is omitted. -/
structure FindOut where
  ranks : List Rank
  cache : Cache
  saveCount : Nat
  wrote : Bool
  errReported : Bool
  deriving Repr, DecidableEq

/-- The body of `Find` (finder.go:237-259) once the deferred `cache.save`
has been registered: the cache-repair full walk when the cache is Fresh,
the exact cache lookup, the incremental walk, and the fuzzy fallback.
Returns the result ranks and the final cache state observed by the
deferred save. -/
def findBody (fs : FSNode) (gopath : GoStr) (dl fd : Int) (c : Cache) (find : GoStr) :
    List Rank × Cache :=
  let c1 :=
    if c.fullScan then
      let st := runWalker fs gopath [] dl fd c
      { st.cache with changed := true, fullScan := false }
    else c
  let fic := findInCache fs gopath c1 find
  if fic.1.isSome && fic.2.1 then (fic.1.getD [], fic.2.2)
  else
    let tr := traverse fs gopath find dl fd fic.2.2
    let pm := tr.1.getD []
    if pm.length > 1 then (sortRanks (rankMethod gopath find pm), tr.2)
    else (fuzzyFindMatches gopath find tr.2 10, tr.2)

/-- `Find(find, max)` (finder.go:228-260). `fd` is the package-level
`depth` flag read by `walkPath`; `main` constructs the finder with
`depthLimit = depth`, so callers of this model that follow the program's
wiring pass `dl = fd`. `saveFails` says whether the deferred
`cache.save` would fail if it attempts a write; the deferred call runs on
every exit path registered after the `isValid` short-circuit and cannot
alter the already-computed return value. The `max` parameter is recorded
faithfully: the source never reads it. -/
def Find (fs : FSNode) (gopath : GoStr) (dl fd : Int) (c : Cache) (find : GoStr)
    (max : Nat) (saveFails : Bool) : FindOut :=
  match isValid fs gopath find with
  | some rs => ⟨rs, c, 0, false, false⟩
  | none =>
    let rc := findBody fs gopath dl fd c find
    ⟨rc.1, rc.2, 1, rc.2.saveWrites, rc.2.saveWrites && saveFails⟩

/-! ## Spec-side comparison definition and traversal over-approximation -/

/-- The spec's exclusion wording, for comparison with `excludedDir`: "the
full path contains a literal `vendor` segment", i.e. `vendor` is one of the
path's slash-separated components. -/
def specVendorSegment (path : GoStr) : Bool :=
  (splitSlash path).any fun comp => comp = "vendor".toList

/-- Over-approximation of the package paths `walkPath` processes during a
walk below siblings `ns` of a parent with components `pc`: it ignores the
(cache-dependent) mtime skip, so every actually-processed package is in
this list. -/
def visitedPkgs (gopath : GoStr) (dl : Int) : List GoStr → FSList → List GoStr
  | _, .nil => []
  | pc, .cons (.mk name isDir _ children) rest =>
    (if !isDir then []
     else
      let comps := pc ++ [name]
      if excludedDir gopath comps name then []
      else
        goJoin comps ::
          (if decide (dl > -1) && decide ((comps.length : Int) ≥ dl) then []
           else visitedPkgs gopath dl comps children))
    ++ visitedPkgs gopath dl pc rest

/-! ## Concrete fixtures used by witnesses and counterexamples -/

/-- Workspace with directories `a/q` and `b/q` (two exact matches for the
query `q`). -/
def fsAB : FSNode :=
  .mk "src".toList true 0
    (.cons (.mk "a".toList true 1 (.cons (.mk "q".toList true 2 .nil) .nil))
     (.cons (.mk "b".toList true 3 (.cons (.mk "q".toList true 4 .nil) .nil)) .nil))

/-- An empty but loaded (non-Fresh, clean) cache. -/
def cEmpty : Cache := ⟨[], false, false⟩

/-- Workspace `x/y/z` for the depth-limit scenario (`D = 3`): `x/y` sits at
depth `D - 1`. -/
def fsXYZ : FSNode :=
  .mk "src".toList true 0
    (.cons (.mk "x".toList true 10
      (.cons (.mk "y".toList true 20
        (.cons (.mk "z".toList true 30 .nil) .nil)) .nil)) .nil)

/-- Cache holding `x` and `x/y` with their current (unchanged) mtimes. -/
def cXY : Cache := ⟨[("x".toList, 10), ("x/y".toList, 20)], false, false⟩

/-- Cache with two entries whose components end in `q`. -/
def cQQ : Cache := ⟨[("a/q".toList, 1), ("b/q".toList, 2)], false, false⟩

/-- Workspace with directories `x`, `x/b`, `x/bd`. -/
def fsXB : FSNode :=
  .mk "src".toList true 0
    (.cons (.mk "x".toList true 9
      (.cons (.mk "b".toList true 5 .nil)
       (.cons (.mk "bd".toList true 6 .nil) .nil))) .nil)

/-- A loaded, clean cache for `fsXB` that is missing the entry `x/b`. -/
def cXBD : Cache := ⟨[("x".toList, 9), ("x/bd".toList, 6)], false, false⟩

/-- Workspace with a single directory `vendors` containing `inner`. -/
def fsVendors : FSNode :=
  .mk "src".toList true 0
    (.cons (.mk "vendors".toList true 1
      (.cons (.mk "inner".toList true 2 .nil) .nil)) .nil)

/-- Workspace with the single directory `x`; `cX` is consistent with it. -/
def fsX : FSNode :=
  .mk "src".toList true 0 (.cons (.mk "x".toList true 7 .nil) .nil)

/-- A cache exactly matching `fsX`'s walk. -/
def cX : Cache := ⟨[("x".toList, 7)], false, false⟩

/-- A cache for `fsX` additionally holding the stale entry `gone/q`, whose
backing directory does not exist. -/
def cStale : Cache := ⟨[("x".toList, 7), ("gone/q".toList, 1)], false, false⟩

/-- Cache whose two entries fuzzily match the query `b` at distances 1 and
0; `cFuzzB2` stores the same entries in the opposite order. -/
def cFuzzB : Cache := ⟨[("x/bd".toList, 6), ("x/b".toList, 5)], false, false⟩

/-- The same bindings as `cFuzzB`, permuted. -/
def cFuzzB2 : Cache := ⟨[("x/b".toList, 5), ("x/bd".toList, 6)], false, false⟩

/-! ## Helper lemmas -/

theorem find?_filter_ne (l : List (GoStr × Int)) (p : GoStr) :
    (l.filter (fun e => !(e.1 = p : Bool))).find? (fun e => (e.1 = p : Bool)) = none := by
  induction l with
  | nil => rfl
  | cons a l ih =>
    by_cases h : a.1 = p
    · simp [List.filter, h, ih]
    · simp [List.filter, h, List.find?, ih]

theorem Cache.get_del_self (c : Cache) (p : GoStr) : (c.del p).get p = none := by
  unfold Cache.del
  cases hg : c.get p with
  | none => exact hg
  | some v => simp [Cache.get, find?_filter_ne]

theorem Cache.get_del_none (c : Cache) (p k : GoStr) (h : c.get k = none) :
    (c.del p).get k = none := by
  unfold Cache.del
  cases hg : c.get p with
  | none => exact h
  | some v =>
    simp only [Cache.get, Option.map_eq_none', List.find?_eq_none] at h ⊢
    intro e he
    exact h e (List.mem_of_mem_filter he)

theorem Cache.fullScan_del (c : Cache) (p : GoStr) : (c.del p).fullScan = c.fullScan := by
  unfold Cache.del
  cases c.get p <;> rfl

theorem recheckPaths_fullScan (fs : FSNode) (gopath : GoStr) :
    ∀ (paths : List GoStr) (c : Cache),
      (recheckPaths fs gopath paths c).2.fullScan = c.fullScan := by
  intro paths
  induction paths with
  | nil => intro c; rfl
  | cons q rest ih =>
    intro c
    unfold recheckPaths
    by_cases hok : (if c.fullScan then true else fs.statRelStr q) = true
    · simp only [hok, if_true]
      exact ih c
    · simp only [Bool.not_eq_true] at hok
      simp only [hok, Bool.false_eq_true, if_false]
      rw [ih (c.del q), Cache.fullScan_del]

theorem recheckPaths_get_none (fs : FSNode) (gopath : GoStr) :
    ∀ (paths : List GoStr) (c : Cache) (k : GoStr), c.get k = none →
      (recheckPaths fs gopath paths c).2.get k = none := by
  intro paths
  induction paths with
  | nil => intro c k h; exact h
  | cons q rest ih =>
    intro c k h
    unfold recheckPaths
    by_cases hok : (if c.fullScan then true else fs.statRelStr q) = true
    · simp only [hok, if_true]
      exact ih c k h
    · simp only [Bool.not_eq_true] at hok
      simp only [hok, Bool.false_eq_true, if_false]
      exact ih (c.del q) k (Cache.get_del_none c q k h)

theorem recheckPaths_stale_evicted (fs : FSNode) (gopath : GoStr) :
    ∀ (paths : List GoStr) (c : Cache), c.fullScan = false →
      ∀ p ∈ paths, fs.statRelStr p = false →
        (recheckPaths fs gopath paths c).2.get p = none := by
  intro paths
  induction paths with
  | nil => intro c _ p hp; exact absurd hp (List.not_mem_nil p)
  | cons q rest ih =>
    intro c hfs p hp hstale
    unfold recheckPaths
    rcases List.mem_cons.mp hp with rfl | hpr
    · simp only [hfs, Bool.false_eq_true, if_false, hstale]
      exact recheckPaths_get_none fs gopath rest (c.del p) p (Cache.get_del_self c p)
    · by_cases hok : (if c.fullScan then true else fs.statRelStr q) = true
      · simp only [hok, if_true]
        exact ih c hfs p hpr hstale
      · simp only [Bool.not_eq_true] at hok
        simp only [hok, Bool.false_eq_true, if_false]
        exact ih (c.del q) (by rw [Cache.fullScan_del]; exact hfs) p hpr hstale

theorem recheckPaths_ranks_exist (fs : FSNode) (gopath : GoStr) :
    ∀ (paths : List GoStr) (c : Cache), c.fullScan = false →
      ∀ r ∈ (recheckPaths fs gopath paths c).1,
        ∃ p ∈ paths, fs.statRelStr p = true ∧ r = ⟨goJoin [gopath, p], 0⟩ := by
  intro paths
  induction paths with
  | nil => intro c _ r hr; exact absurd hr (List.not_mem_nil r)
  | cons q rest ih =>
    intro c hfs r hr
    unfold recheckPaths at hr
    simp only [hfs, Bool.false_eq_true, if_false] at hr
    by_cases hq : fs.statRelStr q = true
    · simp only [hq, if_true] at hr
      rcases List.mem_cons.mp hr with rfl | hrr
      · exact ⟨q, List.mem_cons_self q rest, hq, rfl⟩
      · obtain ⟨p, hp, he, hre⟩ := ih c hfs r hrr
        exact ⟨p, List.mem_cons_of_mem q hp, he, hre⟩
    · simp only [Bool.not_eq_true] at hq
      simp only [hq, Bool.false_eq_true, if_false] at hr
      obtain ⟨p, hp, he, hre⟩ :=
        ih (c.del q) (by rw [Cache.fullScan_del]; exact hfs) r hr
      exact ⟨p, List.mem_cons_of_mem q hp, he, hre⟩

theorem Cache.get_isSome_of_mem_keys (c : Cache) (k : GoStr)
    (h : k ∈ c.storage.map Prod.fst) : (c.get k).isSome = true := by
  obtain ⟨e, he, hek⟩ := List.mem_map.mp h
  unfold Cache.get
  have hmap : ∀ (o : Option (GoStr × Int)), (o.map (·.2)).isSome = o.isSome := by
    intro o; cases o <;> rfl
  rw [hmap, List.find?_isSome]
  exact ⟨e, he, by simp [hek]⟩

theorem Cache.mem_keys_of_get_isSome (c : Cache) (k : GoStr)
    (h : (c.get k).isSome = true) : k ∈ c.storage.map Prod.fst := by
  unfold Cache.get at h
  have hmap : ∀ (o : Option (GoStr × Int)), (o.map (·.2)).isSome = o.isSome := by
    intro o; cases o <;> rfl
  rw [hmap, List.find?_isSome] at h
  obtain ⟨e, he, hek⟩ := h
  exact List.mem_map.mpr ⟨e, he, of_decide_eq_true hek⟩

theorem walkPath_cache_preserved (find pkg : GoStr) (comps : List GoStr) (mt : Int)
    (dl fd : Int) (st : WalkSt) (hfs : st.cache.fullScan = false)
    (hget : (st.cache.get pkg).isSome = true) :
    (walkPath find pkg comps mt dl fd st).1.cache = st.cache := by
  unfold walkPath
  simp only [hfs, Bool.false_eq_true, if_false]
  cases hg : st.cache.get pkg with
  | none => rw [hg] at hget; simp at hget
  | some v =>
    simp only [hg, Option.isNone_some, Bool.false_eq_true, if_false]
    by_cases hm : (matchComponent find comps).isSome = true
    · simp [hm]
    · simp [hm]

theorem walkList_cache_preserved (gopath find : GoStr) (dl fd : Int) :
    ∀ (pc : List GoStr) (ns : FSList) (st : WalkSt),
      st.cache.fullScan = false →
      (∀ p ∈ visitedPkgs gopath dl pc ns, (st.cache.get p).isSome = true) →
      (walkList gopath find dl fd pc ns st).cache = st.cache
  | _, .nil, _, _, _ => rfl
  | pc, .cons (.mk name isDir mt children) rest, st, hfs, hv => by
    rw [walkList]
    cases hdir : isDir with
    | false =>
      simp only [Bool.not_false, if_true]
      refine walkList_cache_preserved gopath find dl fd pc rest st hfs ?_
      intro p hp
      refine hv p ?_
      rw [visitedPkgs, hdir]
      simp only [Bool.not_false, if_true, List.nil_append]
      exact hp
    | true =>
      simp only [Bool.not_true, Bool.false_eq_true, if_false]
      by_cases hex : excludedDir gopath (pc ++ [name]) name = true
      · simp only [hex, if_true]
        refine walkList_cache_preserved gopath find dl fd pc rest st hfs ?_
        intro p hp
        refine hv p ?_
        rw [visitedPkgs, hdir]
        simp only [Bool.not_true, Bool.false_eq_true, if_false, hex, if_true,
          List.nil_append]
        exact hp
      · simp only [hex, Bool.false_eq_true, if_false]
        have hvcons : ∀ p, (p = goJoin (pc ++ [name]) ∨
            (¬(decide (dl > -1) && decide (((pc ++ [name]).length : Int) ≥ dl)) = true ∧
              p ∈ visitedPkgs gopath dl (pc ++ [name]) children) ∨
            p ∈ visitedPkgs gopath dl pc rest) → (st.cache.get p).isSome = true := by
          intro p hp
          refine hv p ?_
          rw [visitedPkgs, hdir]
          simp only [Bool.not_true, Bool.false_eq_true, if_false, hex, List.mem_append]
          rcases hp with rfl | ⟨hnh, hp⟩ | hp
          · exact Or.inl (List.mem_cons_self _ _)
          · refine Or.inl (List.mem_cons_of_mem _ ?_)
            simp only [Bool.not_eq_true] at hnh
            rw [hnh]
            simpa using hp
          · exact Or.inr hp
        have hpkg : (st.cache.get (goJoin (pc ++ [name]))).isSome = true :=
          hvcons _ (Or.inl rfl)
        have hwp : (walkPath find (goJoin (pc ++ [name])) (pc ++ [name]) mt dl fd st).1.cache
            = st.cache :=
          walkPath_cache_preserved find _ _ mt dl fd st hfs hpkg
        by_cases hhit :
            (decide (dl > -1) &&
              decide (((pc ++ [name]).length : Int) ≥ dl)
              || (walkPath find (goJoin (pc ++ [name])) (pc ++ [name]) mt dl fd st).2) = true
        · simp only [hhit, if_true]
          refine Eq.trans
            (walkList_cache_preserved gopath find dl fd pc rest _ (by rw [hwp]; exact hfs) ?_)
            hwp
          intro p hp
          rw [hwp]
          exact hvcons p (Or.inr (Or.inr hp))
        · simp only [hhit, Bool.false_eq_true, if_false]
          have hnothit :
              ¬(decide (dl > -1) && decide (((pc ++ [name]).length : Int) ≥ dl)) = true := by
            intro hcon
            exact absurd (by rw [hcon, Bool.true_or]) hhit
          have hchild :
              (walkList gopath find dl fd (pc ++ [name]) children
                (walkPath find (goJoin (pc ++ [name])) (pc ++ [name]) mt dl fd st).1).cache
              = st.cache := by
            rw [walkList_cache_preserved gopath find dl fd (pc ++ [name]) children _
              (by rw [hwp]; exact hfs)
              (fun p hp => by rw [hwp]; exact hvcons p (Or.inr (Or.inl ⟨hnothit, hp⟩)))]
            exact hwp
          refine Eq.trans
            (walkList_cache_preserved gopath find dl fd pc rest _ (by rw [hchild]; exact hfs) ?_)
            hchild
          intro p hp
          rw [hchild]
          exact hvcons p (Or.inr (Or.inr hp))

theorem containsEntryScan_subset (q : GoStr) (max : Nat) (entry : GoStr) :
    ∀ (sfx : List GoStr) (ret : List GoStr) (p : GoStr),
      p ∈ (containsEntryScan q max entry sfx ret).1 → p ∈ ret ∨ p = entry := by
  intro sfx
  induction sfx with
  | nil => intro ret p hp; exact Or.inl hp
  | cons s rest ih =>
    intro ret p hp
    unfold containsEntryScan at hp
    by_cases hq : q = s
    · rw [if_pos hq] at hp
      by_cases hlen : (ret ++ [entry]).length > max
      · rw [if_pos hlen] at hp
        rcases List.mem_append.mp hp with h | h
        · exact Or.inl h
        · exact Or.inr (List.mem_singleton.mp h)
      · rw [if_neg hlen] at hp
        rcases ih (ret ++ [entry]) p hp with h | h
        · rcases List.mem_append.mp h with h' | h'
          · exact Or.inl h'
          · exact Or.inr (List.mem_singleton.mp h')
        · exact Or.inr h
    · rw [if_neg hq] at hp
      exact ih ret p hp

theorem containsScan_subset (q : GoStr) (max : Nat) :
    ∀ (l : List (GoStr × Int)) (ret : List GoStr) (p : GoStr),
      p ∈ (containsScan q max l ret).1 → p ∈ ret ∨ p ∈ l.map Prod.fst := by
  intro l
  induction l with
  | nil => intro ret p hp; exact Or.inl hp
  | cons e rest ih =>
    intro ret p hp
    unfold containsScan at hp
    cases hes : containsEntryScan q max e.1 (suffixJoins (splitSlash e.1)) ret with
    | mk ret' stop =>
      rw [hes] at hp
      cases stop with
      | true =>
        simp only at hp
        rcases containsEntryScan_subset q max e.1 _ ret p (by rw [hes]; exact hp) with h | h
        · exact Or.inl h
        · exact Or.inr (List.mem_map.mpr ⟨e, List.mem_cons_self e rest, h.symm⟩)
      | false =>
        simp only at hp
        rcases ih ret' p hp with h | h
        · rcases containsEntryScan_subset q max e.1 _ ret p (by rw [hes]; exact h) with h' | h'
          · exact Or.inl h'
          · exact Or.inr (List.mem_map.mpr ⟨e, List.mem_cons_self e rest, h'.symm⟩)
        · rw [List.map_cons]
          exact Or.inr (List.mem_cons_of_mem _ h)

theorem contains_candidates_in_storage (c : Cache) (find : GoStr) (max : Nat) :
    ∀ p ∈ (c.contains find max).1, p ∈ c.storage.map Prod.fst := by
  intro p hp
  unfold Cache.contains at hp
  cases hg : c.get find with
  | some v =>
    rw [hg] at hp
    simp only [List.mem_singleton] at hp
    subst hp
    exact Cache.mem_keys_of_get_isSome c p (by rw [hg]; rfl)
  | none =>
    rw [hg] at hp
    rcases containsScan_subset find max c.storage [] p hp with h | h
    · exact absurd h (List.not_mem_nil p)
    · exact h

theorem recheckPaths_all_exist (fs : FSNode) (gopath : GoStr) :
    ∀ (paths : List GoStr) (c : Cache), c.fullScan = false →
      (∀ p ∈ paths, fs.statRelStr p = true) →
      (recheckPaths fs gopath paths c).2 = c := by
  intro paths
  induction paths with
  | nil => intro c _ _; rfl
  | cons q rest ih =>
    intro c hfs hall
    unfold recheckPaths
    simp only [hfs, Bool.false_eq_true, if_false, hall q (List.mem_cons_self q rest), if_true]
    exact ih c hfs (fun p hp => hall p (List.mem_cons_of_mem q hp))

theorem findInCache_cache_preserved (fs : FSNode) (gopath : GoStr) (c : Cache) (find : GoStr)
    (hfs : c.fullScan = false)
    (he : ∀ k ∈ c.storage.map Prod.fst, fs.statRelStr k = true) :
    (findInCache fs gopath c find).2.2 = c := by
  unfold findInCache
  simp only [hfs, Bool.and_false, Bool.false_eq_true, if_false]
  have hrc : (recheckPaths fs gopath (c.contains find 1).1 c).2 = c :=
    recheckPaths_all_exist fs gopath _ c hfs
      (fun p hp => he p (contains_candidates_in_storage c find 1 p hp))
  by_cases hlen : (recheckPaths fs gopath (c.contains find 1).1 c).1.length > 0
  · rw [if_pos hlen]
    exact hrc
  · rw [if_neg hlen]
    exact hrc

theorem traverse_cache_preserved (fs : FSNode) (gopath find : GoStr) (dl fd : Int)
    (c : Cache) (hfs : c.fullScan = false)
    (hv : ∀ p ∈ visitedPkgs gopath dl [] fs.children, (c.get p).isSome = true) :
    (traverse fs gopath find dl fd c).2 = c := by
  unfold traverse runWalker
  have hw : (walkList gopath find dl fd [] fs.children ⟨c, []⟩).cache = c :=
    walkList_cache_preserved gopath find dl fd [] fs.children ⟨c, []⟩ hfs hv
  by_cases h1 : (walkList gopath find dl fd [] fs.children ⟨c, []⟩).prevCache.length > 1
  · rw [if_pos h1]
    exact hw
  · rw [if_neg h1]
    by_cases h2 : (walkList gopath find dl fd [] fs.children ⟨c, []⟩).prevCache.length = 1
    · rw [if_pos h2]
      exact hw
    · rw [if_neg h2]
      exact hw

theorem findBody_cache_preserved (fs : FSNode) (gopath : GoStr) (dl fd : Int)
    (c : Cache) (find : GoStr)
    (hfs : c.fullScan = false)
    (hv : ∀ p ∈ visitedPkgs gopath dl [] fs.children, (c.get p).isSome = true)
    (he : ∀ k ∈ c.storage.map Prod.fst, fs.statRelStr k = true) :
    (findBody fs gopath dl fd c find).2 = c := by
  unfold findBody
  simp only [hfs, Bool.false_eq_true, if_false]
  rw [findInCache_cache_preserved fs gopath c find hfs he]
  by_cases h1 : ((findInCache fs gopath c find).1.isSome && (findInCache fs gopath c find).2.1)
      = true
  · rw [if_pos h1]
  · rw [if_neg h1]
    rw [traverse_cache_preserved fs gopath find dl fd c hfs hv]
    by_cases h2 : ((traverse fs gopath find dl fd c).1.getD []).length > 1
    · rw [if_pos h2]
    · rw [if_neg h2]


theorem mem_keys_mapSet (l : List (GoStr × Int)) (k : GoStr) (v : Int) (j : GoStr)
    (h : j ∈ l.map Prod.fst) : j ∈ (mapSet l k v).map Prod.fst := by
  unfold mapSet
  by_cases hany : l.any (fun e => (e.1 = k : Bool)) = true
  · rw [if_pos hany]
    obtain ⟨e, he, hej⟩ := List.mem_map.mp h
    refine List.mem_map.mpr ?_
    by_cases hek : e.1 = k
    · exact ⟨(k, v), List.mem_map.mpr ⟨e, he, by rw [if_pos hek]⟩, by rw [← hej, hek]⟩
    · exact ⟨e, List.mem_map.mpr ⟨e, he, by rw [if_neg hek]⟩, hej⟩
  · rw [if_neg hany]
    rw [List.map_append]
    exact List.mem_append_left _ h

theorem self_mem_keys_mapSet (l : List (GoStr × Int)) (k : GoStr) (v : Int) :
    k ∈ (mapSet l k v).map Prod.fst := by
  unfold mapSet
  by_cases hany : l.any (fun e => (e.1 = k : Bool)) = true
  · rw [if_pos hany]
    obtain ⟨e, he, hek⟩ := List.any_eq_true.mp hany
    refine List.mem_map.mpr ⟨(k, v), List.mem_map.mpr ⟨e, he, by rw [if_pos (of_decide_eq_true hek)]⟩, rfl⟩
  · rw [if_neg hany]
    rw [List.map_append]
    exact List.mem_append_right _ (by simp)

theorem Cache.get_add_isSome_mono (c : Cache) (k : GoStr) (v : Int) (j : GoStr)
    (h : (c.get j).isSome = true) : ((c.add k v).get j).isSome = true :=
  Cache.get_isSome_of_mem_keys _ j
    (mem_keys_mapSet c.storage k v j (Cache.mem_keys_of_get_isSome c j h))

theorem Cache.get_add_self_isSome (c : Cache) (k : GoStr) (v : Int) :
    ((c.add k v).get k).isSome = true :=
  Cache.get_isSome_of_mem_keys _ k (self_mem_keys_mapSet c.storage k v)

theorem walkPath_get_isSome (find pkg : GoStr) (comps : List GoStr) (mt : Int)
    (dl fd : Int) (st : WalkSt) (j : GoStr) (h : (st.cache.get j).isSome = true) :
    ((walkPath find pkg comps mt dl fd st).1.cache.get j).isSome = true := by
  unfold walkPath
  by_cases hfs : st.cache.fullScan = true
  · rw [if_pos hfs]
    exact Cache.get_add_isSome_mono st.cache pkg mt j h
  · rw [if_neg hfs]
    have hc1 : ∀ (c1 : Cache), (c1 = if (st.cache.get pkg).isNone then st.cache.add pkg mt
        else st.cache) → (c1.get j).isSome = true := by
      intro c1 hc1
      by_cases hn : (st.cache.get pkg).isNone = true
      · rw [hc1, if_pos hn]
        exact Cache.get_add_isSome_mono st.cache pkg mt j h
      · rw [hc1, if_neg hn]
        exact h
    by_cases hm : (matchComponent find comps).isSome = true
    · rw [if_pos hm]
      exact hc1 _ rfl
    · rw [if_neg hm]
      exact hc1 _ rfl

theorem walkPath_get_self_isSome (find pkg : GoStr) (comps : List GoStr) (mt : Int)
    (dl fd : Int) (st : WalkSt) :
    ((walkPath find pkg comps mt dl fd st).1.cache.get pkg).isSome = true := by
  unfold walkPath
  by_cases hfs : st.cache.fullScan = true
  · rw [if_pos hfs]
    exact Cache.get_add_self_isSome st.cache pkg mt
  · rw [if_neg hfs]
    have hc1 : ∀ (c1 : Cache), (c1 = if (st.cache.get pkg).isNone then st.cache.add pkg mt
        else st.cache) → (c1.get pkg).isSome = true := by
      intro c1 hc1
      by_cases hn : (st.cache.get pkg).isNone = true
      · rw [hc1, if_pos hn]
        exact Cache.get_add_self_isSome st.cache pkg mt
      · rw [hc1, if_neg hn]
        cases hg : st.cache.get pkg with
        | some p => rfl
        | none => rw [hg] at hn; exact absurd rfl hn
    by_cases hm : (matchComponent find comps).isSome = true
    · rw [if_pos hm]
      exact hc1 _ rfl
    · rw [if_neg hm]
      exact hc1 _ rfl

theorem walkList_get_isSome_mono (gopath find : GoStr) (dl fd : Int) :
    ∀ (pc : List GoStr) (ns : FSList) (st : WalkSt) (j : GoStr),
      (st.cache.get j).isSome = true →
      ((walkList gopath find dl fd pc ns st).cache.get j).isSome = true
  | _, .nil, _, _, h => h
  | pc, .cons (.mk name isDir mt children) rest, st, j, h => by
    rw [walkList]
    cases hdir : isDir with
    | false =>
      simp only [Bool.not_false, if_true]
      exact walkList_get_isSome_mono gopath find dl fd pc rest st j h
    | true =>
      simp only [Bool.not_true, Bool.false_eq_true, if_false]
      by_cases hex : excludedDir gopath (pc ++ [name]) name = true
      · rw [if_pos hex]
        exact walkList_get_isSome_mono gopath find dl fd pc rest st j h
      · rw [if_neg hex]
        have hwp := walkPath_get_isSome find (goJoin (pc ++ [name])) (pc ++ [name]) mt dl fd st
          j h
        by_cases hhit :
            (decide (dl > -1) &&
              decide (((pc ++ [name]).length : Int) ≥ dl)
              || (walkPath find (goJoin (pc ++ [name])) (pc ++ [name]) mt dl fd st).2) = true
        · rw [if_pos hhit]
          exact walkList_get_isSome_mono gopath find dl fd pc rest _ j hwp
        · rw [if_neg hhit]
          exact walkList_get_isSome_mono gopath find dl fd pc rest _ j
            (walkList_get_isSome_mono gopath find dl fd (pc ++ [name]) children _ j hwp)

theorem fuzzyScanRanks_target (gopath entry : GoStr) :
    ∀ (rs : List Rank) (acc : Option Rank),
      (∀ m, acc = some m → m.target = goJoin [gopath, entry]) →
      ∀ r, fuzzyScanRanks gopath entry rs acc = some r → r.target = goJoin [gopath, entry] := by
  intro rs
  induction rs with
  | nil => intro acc hacc r hr; exact hacc r hr
  | cons x rest ih =>
    intro acc hacc r hr
    unfold fuzzyScanRanks at hr
    by_cases hd : x.distance > 10
    · simp only [hd, if_true] at hr
      exact ih acc hacc r hr
    · simp only [hd, Bool.false_eq_true, if_false] at hr
      cases hc : acc with
      | some m =>
        rw [hc] at hr
        by_cases hlt : x.distance < m.distance
        · simp only [hlt, if_true] at hr
          exact ih _ (fun m' hm' => by cases hm'; rfl) r hr
        · simp only [hlt, if_false] at hr
          exact ih _ (fun m' hm' => by cases hm'; exact hacc m hc) r hr
      | none =>
        rw [hc] at hr
        exact ih _ (fun m' hm' => by cases hm'; rfl) r hr

theorem fuzzyEntry_target (gopath find entry : GoStr) (r : Rank)
    (h : fuzzyEntry gopath find entry = some r) : r.target = goJoin [gopath, entry] :=
  fuzzyScanRanks_target gopath entry _ none (fun m hm => by cases hm) r h

theorem goJoin_pair (g a : GoStr) :
    goJoin [g, a] = if g.isEmpty then (if a.isEmpty then [] else a)
      else (if a.isEmpty then g else g ++ '/' :: a) := by
  rcases g with _ | ⟨z, zs⟩ <;> rcases a with _ | ⟨x, xs⟩ <;> simp [goJoin, List.filter]

theorem goJoin_pair_inj {g a b : GoStr} (h : goJoin [g, a] = goJoin [g, b]) : a = b := by
  rw [goJoin_pair, goJoin_pair] at h
  by_cases hg : g.isEmpty
  · simp only [if_pos hg] at h
    by_cases ha : a.isEmpty <;> by_cases hb : b.isEmpty <;> simp_all [List.isEmpty_iff]
  · simp only [if_neg hg] at h
    by_cases ha : a.isEmpty
    · by_cases hb : b.isEmpty
      · rw [List.isEmpty_iff] at ha hb
        rw [ha, hb]
      · rw [if_pos ha, if_neg hb] at h
        have hlen := congrArg List.length h
        simp only [List.length_append, List.length_cons] at hlen
        omega
    · by_cases hb : b.isEmpty
      · rw [if_neg ha, if_pos hb] at h
        have hlen := congrArg List.length h
        simp only [List.length_append, List.length_cons] at hlen
        omega
      · rw [if_neg ha, if_neg hb] at h
        exact (List.cons.injEq _ _ _ _ ▸ List.append_cancel_left h).2

theorem collected_target_mem (gopath find : GoStr) (l : List (GoStr × Int)) (t : GoStr)
    (h : t ∈ (l.filterMap fun e => fuzzyEntry gopath find e.1).map Rank.target) :
    ∃ k ∈ l.map Prod.fst, t = goJoin [gopath, k] := by
  obtain ⟨r, hr, hrt⟩ := List.mem_map.mp h
  obtain ⟨e, he, hfe⟩ := List.mem_filterMap.mp hr
  exact ⟨e.1, List.mem_map_of_mem Prod.fst he, hrt ▸ fuzzyEntry_target gopath find e.1 r hfe⟩

theorem collected_targets_nodup (gopath find : GoStr) :
    ∀ (l : List (GoStr × Int)), (l.map Prod.fst).Nodup →
      ((l.filterMap fun e => fuzzyEntry gopath find e.1).map Rank.target).Nodup := by
  intro l
  induction l with
  | nil => intro _; simp
  | cons e rest ih =>
    intro hnd
    rw [List.map_cons, List.nodup_cons] at hnd
    rw [List.filterMap_cons]
    cases hfe : fuzzyEntry gopath find e.1 with
    | none => exact ih hnd.2
    | some r =>
      rw [List.map_cons, List.nodup_cons]
      refine ⟨fun hmem => ?_, ih hnd.2⟩
      obtain ⟨k, hk, hkt⟩ := collected_target_mem gopath find rest r.target hmem
      rw [fuzzyEntry_target gopath find e.1 r hfe] at hkt
      exact hnd.1 (goJoin_pair_inj hkt ▸ hk)

theorem sortRanks_sorted (l : List Rank) : List.Sorted rankLe (sortRanks l) :=
  List.sorted_insertionSort rankLe l

theorem sortRanks_perm (l : List Rank) : (sortRanks l).Perm l :=
  List.perm_insertionSort rankLe l

theorem sortRanks_eq_of_perm {l₁ l₂ : List Rank} (h : l₁.Perm l₂) :
    sortRanks l₁ = sortRanks l₂ :=
  List.eq_of_perm_of_sorted ((sortRanks_perm l₁).trans (h.trans (sortRanks_perm l₂).symm))
    (sortRanks_sorted l₁) (sortRanks_sorted l₂)

theorem rankLe_ne_strict {a b : Rank} (h : rankLe a b) (hne : a.target ≠ b.target) :
    a.distance < b.distance ∨ (a.distance = b.distance ∧ gsLt a.target b.target = true) := by
  rcases h with h | ⟨he, ht⟩
  · exact Or.inl h
  · refine Or.inr ⟨he, ?_⟩
    rcases gsLt_trichot a.target b.target with hx | hx | hx
    · exact hx
    · exact absurd hx hne
    · unfold gsLe at ht
      rw [hx] at ht
      simp at ht

/-! ## Claim theorems -/

/-- C1: with depth limit `D = 3` (so the flag `depth` is also 3, as wired
by `main`), the directory `x/y` at depth `D - 1 = 2` is cached with an
unchanged mtime, yet `walkPath` does not request `SkipDir` (the guard
`w.depthLimit-1 == depth` compares against the flag, never the directory's
depth, and `D - 1 ≠ D`), and the walker therefore descends into `x/y`,
visiting and caching its child `x/y/z` — contrary to the claimed
skip-optimization at depth `D - 1`. -/
theorem c1_descends_at_last_level_despite_unchanged_mtime :
    (walkPath "qq".toList "x/y".toList ["x".toList, "y".toList] 20 3 3 ⟨cXY, []⟩).2 = false ∧
    (runWalker fsXYZ "/g".toList "qq".toList 3 3 cXY).cache.get "x/y/z".toList = some 30 := by
  decide

/-- C2 counterexample: on a workspace with the two exact matches `a/q` and
`b/q`, `Find("q", 1)` returns two results — the multi-match walk path is
returned without any truncation to the caller's maximum. -/
theorem c2_counterexample :
    (Find fsAB "/g".toList 3 3 cEmpty "q".toList 1 false).ranks.length = 2 := by
  decide

/-- C2 amended: `Find` never reads its caller-supplied maximum (its outcome
is identical for any two values of `max`); the only truncation in the
pipeline is inside the fuzzy matcher, which truncates its sorted result to
its own count argument (`Find` passes the fixed constant 10). -/
theorem c2_find_ignores_max_fuzzy_truncates :
    (∀ (fs : FSNode) (gopath : GoStr) (dl fd : Int) (c : Cache) (find : GoStr)
       (max1 max2 : Nat) (sf : Bool),
       Find fs gopath dl fd c find max1 sf = Find fs gopath dl fd c find max2 sf) ∧
    (∀ (gopath find : GoStr) (c : Cache) (num : Nat),
       (fuzzyFindMatches gopath find c num).length ≤ num) := by
  constructor
  · intro fs gopath dl fd c find max1 max2 sf
    rfl
  · intro gopath find c num
    unfold fuzzyFindMatches
    by_cases h : (sortRanks (c.storage.filterMap fun e => fuzzyEntry gopath find e.1)).length > num
    · simp only [if_pos h]
      exact List.length_take_le num _
    · simp only [if_neg h]
      omega

/-- C3 counterexample: with the two matching directories `a/q` and `b/q`,
the walk does not return at the first match: it keeps walking and its match
accumulator ends up holding both packages. -/
theorem c3_counterexample :
    (runWalker fsAB "/g".toList "q".toList 3 3 cEmpty).prevCache
      = ["a/q".toList, "b/q".toList] := by
  decide

/-- C4: `cache.contains`'s doc comment and the claim promise at most `max`
matches, but the bound is checked only after appending: with the two
suffix-matching entries `a/q` and `b/q` and `max = 1`, it returns both. -/
theorem c4_contains_exceeds_max :
    cQQ.contains "q".toList 1 = (["a/q".toList, "b/q".toList], false) := by
  decide

/-- C3 amended: in the non-full-scan walk, a directory whose trailing
components equal the query makes `walkPath` return early: no `SkipDir` is
requested (the mtime-skip logic is bypassed) and the match accumulator
either gains that one package at the end or is left unchanged (the
`sort.SearchStrings` guard appends only a package greater than all
recorded ones); the walk itself continues and can accumulate several
matches (see the accompanying two-match counterexample). -/
theorem c3_walkpath_match_returns_early
    (find pkg : GoStr) (comps : List GoStr) (mt : Int) (dl fd : Int) (st : WalkSt)
    (hfs : st.cache.fullScan = false)
    (hm : (matchComponent find comps).isSome = true) :
    (walkPath find pkg comps mt dl fd st).2 = false ∧
    ((walkPath find pkg comps mt dl fd st).1.prevCache = st.prevCache ++ [pkg] ∨
     (walkPath find pkg comps mt dl fd st).1.prevCache = st.prevCache) := by
  unfold walkPath
  simp only [hfs, Bool.false_eq_true, if_false, hm, if_true]
  refine ⟨by trivial, ?_⟩
  by_cases hl : st.prevCache.length ≤ searchStringsIdx st.prevCache pkg
  · simp [hl]
  · simp [hl]

/-- C3 witness: the match of query `q` at directory `a/q` on an empty
loaded cache. -/
theorem c3_witness :
    ((⟨cEmpty, []⟩ : WalkSt).cache.fullScan = false) ∧
    ((matchComponent "q".toList ["a".toList, "q".toList]).isSome = true) ∧
    ((walkPath "q".toList "a/q".toList ["a".toList, "q".toList] 2 3 3 ⟨cEmpty, []⟩).2 = false ∧
     ((walkPath "q".toList "a/q".toList ["a".toList, "q".toList] 2 3 3 ⟨cEmpty, []⟩).1.prevCache
        = ([] : List GoStr) ++ ["a/q".toList] ∨
      (walkPath "q".toList "a/q".toList ["a".toList, "q".toList] 2 3 3 ⟨cEmpty, []⟩).1.prevCache
        = ([] : List GoStr))) :=
  ⟨by decide, by decide,
    c3_walkpath_match_returns_early "q".toList "a/q".toList ["a".toList, "q".toList] 2 3 3
      ⟨cEmpty, []⟩ (by decide) (by decide)⟩

/-- C5: in `Find`'s exact cache-lookup stage the cache is never in
full-scan mode (when the loaded cache was Fresh, the repair walk has
already cleared the flag before `findInCache` runs), so every candidate
`contains` yields is statted: one whose backing directory no longer exists
is evicted via `del` — absent from the storage that the flush persists —
and every rank actually served stems from a candidate that still exists on
disk, so a stale hit is never returned. -/
theorem c5_recheck_evicts_stale_serves_only_existing
    (fs : FSNode) (gopath : GoStr) (c : Cache) (find : GoStr)
    (hfs : c.fullScan = false) :
    (∀ p ∈ (c.contains find 1).1, fs.statRelStr p = false →
       (findInCache fs gopath c find).2.2.get p = none) ∧
    (∀ r ∈ ((findInCache fs gopath c find).1.getD []),
       ∃ p ∈ (c.contains find 1).1, fs.statRelStr p = true ∧
         r.target = goJoin [gopath, p]) := by
  unfold findInCache
  simp only [hfs, Bool.and_false, Bool.false_eq_true, if_false]
  constructor
  · intro p hp hstale
    by_cases hlen : (recheckPaths fs gopath (c.contains find 1).1 c).1.length > 0
    · simp only [if_pos hlen]
      exact recheckPaths_stale_evicted fs gopath _ c hfs p hp hstale
    · simp only [if_neg hlen]
      exact recheckPaths_stale_evicted fs gopath _ c hfs p hp hstale
  · intro r hr
    by_cases hlen : (recheckPaths fs gopath (c.contains find 1).1 c).1.length > 0
    · simp only [if_pos hlen, Option.getD_some] at hr
      obtain ⟨p, hp, he, hre⟩ := recheckPaths_ranks_exist fs gopath _ c hfs r hr
      exact ⟨p, hp, he, by rw [hre]⟩
    · simp only [if_neg hlen, Option.getD_none] at hr
      exact absurd hr (List.not_mem_nil r)

/-- C5 witness: on `fsX`, the cache `cStale` holds the stale entry
`gone/q`; the lookup for `q` returns it as a candidate, finds it gone and
evicts it. -/
theorem c5_witness :
    (cStale.fullScan = false) ∧
    ("gone/q".toList ∈ (cStale.contains "q".toList 1).1) ∧
    (fsX.statRelStr "gone/q".toList = false) ∧
    ((findInCache fsX "/g".toList cStale "q".toList).2.2.get "gone/q".toList = none) :=
  ⟨by decide, by decide, by decide,
    (c5_recheck_evicts_stale_serves_only_existing fsX "/g".toList cStale "q".toList
      (by decide)).1 "gone/q".toList (by decide) (by decide)⟩

/-- C6 counterexample: an absolute query exits `Find` before the deferred
`cache.save` is even registered, so on this (successful) exit path the
flush runs zero times, not exactly once. -/
theorem c6_counterexample :
    (Find fsAB "/g".toList 3 3 cEmpty "/abs/path".toList 10 false).saveCount = 0 := by
  decide

/-- C7 counterexample: the directory `vendors` under the root `/g` has no
`vendor` path segment and its name starts with neither `.` nor `_`, yet the
walker's exclusion test fires (the source tests `strings.Contains`, a
substring match) and the whole subtree is skipped — so "excluded exactly
when the path contains a literal `vendor` segment" is false. -/
theorem c7_counterexample :
    excludedDir "/g".toList ["vendors".toList] "vendors".toList = true ∧
    goHasPre "vendors".toList ".".toList = false ∧
    goHasPre "vendors".toList "_".toList = false ∧
    specVendorSegment (goJoin ["/g".toList, "vendors".toList]) = false ∧
    (runWalker fsVendors "/g".toList "zz".toList 3 3 cEmpty).cache.storage = [] := by
  decide

/-- C6 amended: whenever the literal/real-path short-circuit does not
fire, the deferred flush runs exactly once; it attempts a write exactly
when the final cache is dirty or Fresh (`save`'s guard); and the result
ranks do not depend on whether that save fails — the deferred call cannot
alter the already-computed return value. -/
theorem c6_flush_once_after_shortcircuit
    (fs : FSNode) (gopath : GoStr) (dl fd : Int) (c : Cache) (find : GoStr)
    (max : Nat) (sf sf' : Bool)
    (h : isValid fs gopath find = none) :
    (Find fs gopath dl fd c find max sf).saveCount = 1 ∧
    (Find fs gopath dl fd c find max sf).wrote
      = (Find fs gopath dl fd c find max sf).cache.saveWrites ∧
    (Find fs gopath dl fd c find max sf).ranks = (Find fs gopath dl fd c find max sf').ranks := by
  unfold Find
  rw [h]
  exact ⟨rfl, rfl, rfl⟩

/-- C6 witness: the non-resolving query `zz` on the one-directory
workspace `fsX` with its consistent cache `cX`, with a failing and a
succeeding save. -/
theorem c6_witness :
    (isValid fsX "/g".toList "zz".toList = none) ∧
    ((Find fsX "/g".toList 3 3 cX "zz".toList 10 true).saveCount = 1 ∧
     (Find fsX "/g".toList 3 3 cX "zz".toList 10 true).wrote
       = (Find fsX "/g".toList 3 3 cX "zz".toList 10 true).cache.saveWrites ∧
     (Find fsX "/g".toList 3 3 cX "zz".toList 10 true).ranks
       = (Find fsX "/g".toList 3 3 cX "zz".toList 10 false).ranks) :=
  ⟨by decide,
    c6_flush_once_after_shortcircuit fsX "/g".toList 3 3 cX "zz".toList 10 true false (by decide)⟩

/-- C7 amended: during traversal a non-directory entry is always skipped
(it changes nothing in the walk state), and a directory is excluded — its
subtree not descended into and nothing of it indexed — exactly when its
name starts with `.` or `_` or its full absolute path contains `vendor` as
a substring (not necessarily as a whole path segment): an excluded
directory leaves the state untouched, while a non-excluded directory is
always processed and ends up present in the cache. -/
theorem c7_walker_skip_rules :
    (∀ (gopath find : GoStr) (dl fd : Int) (pc : List GoStr) (name : GoStr)
       (mt : Int) (cs rest : FSList) (st : WalkSt),
       walkList gopath find dl fd pc (.cons (.mk name false mt cs) rest) st
         = walkList gopath find dl fd pc rest st) ∧
    (∀ (gopath find : GoStr) (dl fd : Int) (pc : List GoStr) (name : GoStr)
       (mt : Int) (cs rest : FSList) (st : WalkSt),
       excludedDir gopath (pc ++ [name]) name = true →
       walkList gopath find dl fd pc (.cons (.mk name true mt cs) rest) st
         = walkList gopath find dl fd pc rest st) ∧
    (∀ (gopath find : GoStr) (dl fd : Int) (pc : List GoStr) (name : GoStr)
       (mt : Int) (cs : FSList) (st : WalkSt),
       excludedDir gopath (pc ++ [name]) name = false →
       ((walkList gopath find dl fd pc (.cons (.mk name true mt cs) .nil) st).cache.get
          (goJoin (pc ++ [name]))).isSome = true) := by
  refine ⟨?_, ?_, ?_⟩
  · intro gopath find dl fd pc name mt cs rest st
    rw [walkList]
    simp only [Bool.not_false, if_true]
  · intro gopath find dl fd pc name mt cs rest st hex
    rw [walkList]
    simp only [Bool.not_true, Bool.false_eq_true, if_false, hex, if_true]
  · intro gopath find dl fd pc name mt cs st hex
    rw [walkList]
    simp only [Bool.not_true, Bool.false_eq_true, if_false, hex, if_false]
    have hself := walkPath_get_self_isSome find (goJoin (pc ++ [name])) (pc ++ [name]) mt dl fd st
    by_cases hhit :
        (decide (dl > -1) &&
          decide (((pc ++ [name]).length : Int) ≥ dl)
          || (walkPath find (goJoin (pc ++ [name])) (pc ++ [name]) mt dl fd st).2) = true
    · rw [if_pos hhit]
      show (((walkPath find (goJoin (pc ++ [name])) (pc ++ [name]) mt dl fd
          st).1).cache.get (goJoin (pc ++ [name]))).isSome = true
      exact hself
    · rw [if_neg hhit]
      show ((walkList gopath find dl fd (pc ++ [name]) cs
          (walkPath find (goJoin (pc ++ [name])) (pc ++ [name]) mt dl fd st).1).cache.get
            (goJoin (pc ++ [name]))).isSome = true
      exact walkList_get_isSome_mono gopath find dl fd (pc ++ [name]) cs _ _ hself

/-- C7 witness: the excluded directory `vendors` (substring hit without a
`vendor` segment) and the non-excluded directory `x` under root `/g`. -/
theorem c7_witness :
    (excludedDir "/g".toList (["vendors".toList]) "vendors".toList = true) ∧
    (walkList "/g".toList "zz".toList 3 3 []
        (.cons (.mk "vendors".toList true 1 .nil) .nil) ⟨cEmpty, []⟩
      = walkList "/g".toList "zz".toList 3 3 [] .nil ⟨cEmpty, []⟩) ∧
    (excludedDir "/g".toList (["x".toList]) "x".toList = false) ∧
    (((walkList "/g".toList "zz".toList 3 3 []
        (.cons (.mk "x".toList true 7 .nil) .nil) ⟨cEmpty, []⟩).cache.get
          (goJoin ([] ++ ["x".toList]))).isSome = true) :=
  ⟨by decide,
   (c7_walker_skip_rules.2.1 "/g".toList "zz".toList 3 3 [] "vendors".toList 1 .nil .nil
      ⟨cEmpty, []⟩ (by decide)),
   by decide,
   (c7_walker_skip_rules.2.2 "/g".toList "zz".toList 3 3 [] "x".toList 7 .nil
      ⟨cEmpty, []⟩ (by decide))⟩

/-- C8: the fuzzy matcher's output is strictly ordered — ascending
distance, ties in strictly ascending lexicographic target order (so two
candidates with equal distance appear in lexicographic target order) — and
it is deterministic: permuting the storage (the Go map's arbitrary
iteration order) leaves the output unchanged. The key-uniqueness
hypothesis is the Go map invariant. -/
theorem c8_fuzzy_sorted_deterministic
    (gopath find : GoStr) (c c2 : Cache) (num : Nat)
    (hnd : (c.storage.map Prod.fst).Nodup) :
    List.Pairwise
      (fun a b : Rank => a.distance < b.distance ∨
        (a.distance = b.distance ∧ gsLt a.target b.target = true))
      (fuzzyFindMatches gopath find c num) ∧
    (c.storage.Perm c2.storage →
      fuzzyFindMatches gopath find c num = fuzzyFindMatches gopath find c2 num) := by
  constructor
  · unfold fuzzyFindMatches
    have hsorted : List.Pairwise rankLe
        (sortRanks (c.storage.filterMap fun e => fuzzyEntry gopath find e.1)) :=
      sortRanks_sorted _
    have hnodup :
        ((sortRanks (c.storage.filterMap fun e => fuzzyEntry gopath find e.1)).map
          Rank.target).Nodup :=
      (List.Perm.nodup_iff ((sortRanks_perm _).map Rank.target)).mpr
        (collected_targets_nodup gopath find c.storage hnd)
    have hne : List.Pairwise (fun a b : Rank => a.target ≠ b.target)
        (sortRanks (c.storage.filterMap fun e => fuzzyEntry gopath find e.1)) :=
      List.pairwise_map.mp hnodup
    have hstrict := (hsorted.and hne).imp
      (fun h => rankLe_ne_strict h.1 h.2)
    by_cases hlen :
        (sortRanks (c.storage.filterMap fun e => fuzzyEntry gopath find e.1)).length > num
    · simp only [if_pos hlen]
      exact hstrict.sublist (List.take_sublist num _)
    · simp only [if_neg hlen]
      exact hstrict
  · intro hperm
    simp only [fuzzyFindMatches]
    rw [sortRanks_eq_of_perm (hperm.filterMap fun e => fuzzyEntry gopath find e.1)]

/-- C8 witness: the two-entry cache `cFuzzB` (keys `x/bd`, `x/b`) and its
permutation `cFuzzB2`, query `b`. -/
theorem c8_witness :
    ((cFuzzB.storage.map Prod.fst).Nodup) ∧
    List.Pairwise
      (fun a b : Rank => a.distance < b.distance ∨
        (a.distance = b.distance ∧ gsLt a.target b.target = true))
      (fuzzyFindMatches "/g".toList "b".toList cFuzzB 10) ∧
    (cFuzzB.storage.Perm cFuzzB2.storage) ∧
    fuzzyFindMatches "/g".toList "b".toList cFuzzB 10
      = fuzzyFindMatches "/g".toList "b".toList cFuzzB2 10 :=
  ⟨by decide,
   (c8_fuzzy_sorted_deterministic "/g".toList "b".toList cFuzzB cFuzzB2 10 (by decide)).1,
   by decide,
   (c8_fuzzy_sorted_deterministic "/g".toList "b".toList cFuzzB cFuzzB2 10 (by decide)).2
     (by decide)⟩

/-- C9 counterexample: `fsXB` is unchanged between two consecutive `Find`
calls and `cXBD` is a loaded, clean, non-Fresh cache; the first call walks
and caches the missing `x/b`, marking the cache dirty, and since `save`
never clears the dirty flag the second call still finds it set and its
flush performs another write — the claim's "dirty flag false and no
persisted write" after the second call fails. -/
theorem c9_counterexample :
    ((Find fsXB "/g".toList 3 3
        (Find fsXB "/g".toList 3 3 cXBD "b".toList 10 false).cache
        "b".toList 10 false).wrote = true) ∧
    ((Find fsXB "/g".toList 3 3
        (Find fsXB "/g".toList 3 3 cXBD "b".toList 10 false).cache
        "b".toList 10 false).cache.changed = true) := by
  decide

/-- C9 amended: when the loaded, clean (non-Fresh, non-dirty) cache is
consistent with the unchanged tree — every directory the walk would
process is cached, and every cached key still exists on disk — a `Find`
call leaves the cache exactly as it was and performs no write, so a second
consecutive call computes on the identical state: it returns identical
ordered results, leaves the dirty flag false, and its flush performs no
persisted write. (For a merely loaded cache this fails: see the
counterexample — the first call may dirty the cache, and `save` never
clears the dirty flag, so the second call's flush writes again.) -/
theorem c9_consistent_cache_idempotent
    (fs : FSNode) (gopath : GoStr) (dl fd : Int) (c : Cache) (find : GoStr)
    (max : Nat) (sf : Bool)
    (hfs : c.fullScan = false) (hch : c.changed = false)
    (hv : ∀ p ∈ visitedPkgs gopath dl [] fs.children, (c.get p).isSome = true)
    (he : ∀ k ∈ c.storage.map Prod.fst, fs.statRelStr k = true) :
    (Find fs gopath dl fd c find max sf).cache = c ∧
    (Find fs gopath dl fd c find max sf).wrote = false ∧
    (Find fs gopath dl fd (Find fs gopath dl fd c find max sf).cache find max sf).ranks
      = (Find fs gopath dl fd c find max sf).ranks ∧
    (Find fs gopath dl fd (Find fs gopath dl fd c find max sf).cache find max sf).cache.changed
      = false ∧
    (Find fs gopath dl fd (Find fs gopath dl fd c find max sf).cache find max sf).wrote
      = false := by
  have hbody := findBody_cache_preserved fs gopath dl fd c find hfs hv he
  have hcache : (Find fs gopath dl fd c find max sf).cache = c := by
    unfold Find
    cases hiv : isValid fs gopath find with
    | some rs => rfl
    | none =>
      show (findBody fs gopath dl fd c find).2 = c
      exact hbody
  have hwrote : (Find fs gopath dl fd c find max sf).wrote = false := by
    unfold Find
    cases hiv : isValid fs gopath find with
    | some rs => rfl
    | none =>
      show (findBody fs gopath dl fd c find).2.saveWrites = false
      rw [hbody]
      unfold Cache.saveWrites
      rw [hch, hfs]
      rfl
  refine ⟨hcache, hwrote, ?_, ?_, ?_⟩
  · rw [hcache]
  · rw [hcache, hcache]
    exact hch
  · rw [hcache]
    exact hwrote

/-- C9 witness: workspace `fsX` with its exactly-consistent cache `cX` and
the non-matching query `zz`. -/
theorem c9_witness :
    (cX.fullScan = false) ∧ (cX.changed = false) ∧
    ((Find fsX "/g".toList 3 3 cX "zz".toList 10 false).cache = cX) ∧
    ((Find fsX "/g".toList 3 3 (Find fsX "/g".toList 3 3 cX "zz".toList 10 false).cache
        "zz".toList 10 false).ranks
      = (Find fsX "/g".toList 3 3 cX "zz".toList 10 false).ranks) ∧
    ((Find fsX "/g".toList 3 3 (Find fsX "/g".toList 3 3 cX "zz".toList 10 false).cache
        "zz".toList 10 false).wrote = false) :=
  have hv : ∀ p ∈ visitedPkgs "/g".toList 3 [] fsX.children, (cX.get p).isSome = true := by
    intro p hp
    rw [show visitedPkgs "/g".toList 3 [] fsX.children = ["x".toList] by decide] at hp
    obtain rfl := List.mem_singleton.mp hp
    decide
  have he : ∀ k ∈ cX.storage.map Prod.fst, fsX.statRelStr k = true := by
    intro k hk
    rw [show cX.storage.map Prod.fst = ["x".toList] by decide] at hk
    obtain rfl := List.mem_singleton.mp hk
    decide
  ⟨by decide, by decide,
    (c9_consistent_cache_idempotent fsX "/g".toList 3 3 cX "zz".toList 10 false
      (by decide) (by decide) hv he).1,
    (c9_consistent_cache_idempotent fsX "/g".toList 3 3 cX "zz".toList 10 false
      (by decide) (by decide) hv he).2.2.1,
    (c9_consistent_cache_idempotent fsX "/g".toList 3 3 cX "zz".toList 10 false
      (by decide) (by decide) hv he).2.2.2.2⟩

/-- C10: an absolute query short-circuits `Find` entirely: the exact query
string comes back as a singleton with distance 0, the cache is returned
untouched (never read: the result is a constant in it), and the deferred
flush is never registered — irrespective of whether the path exists. -/
theorem c10_absolute_query_shortcircuit
    (fs : FSNode) (gopath : GoStr) (dl fd : Int) (c : Cache) (find : GoStr)
    (max : Nat) (saveFails : Bool) (h : goHasPre find "/".toList = true) :
    Find fs gopath dl fd c find max saveFails = ⟨[⟨find, 0⟩], c, 0, false, false⟩ := by
  unfold Find isValid
  rw [h]
  simp

/-- C10 witness: the nonexistent absolute path `/no/such` on the one-entry
workspace `fsX`. -/
theorem c10_witness :
    goHasPre "/no/such".toList "/".toList = true ∧
    Find fsX "/g".toList 3 3 cX "/no/such".toList 10 false
      = ⟨[⟨"/no/such".toList, 0⟩], cX, 0, false, false⟩ :=
  ⟨by decide, c10_absolute_query_shortcircuit fsX "/g".toList 3 3 cX "/no/such".toList 10 false
    (by decide)⟩

end Gocd
